import Mathlib

/-!
# libcsp `csp.h`: the identifier union, the packet record and the protocol constants

The development embeds the declarations of `src/include/csp/csp.h`.

* `csp_id_t` is four bytes of storage (`tab`), seen through the overlapping
  members `ext`, `std` and the anonymous bit-field record.
* The header selects one of two bit-field declarations with
  `_CSP_BIG_ENDIAN_` / `_CSP_LITTLE_ENDIAN_`; the selected declaration names the
  byte order of the target.  Bit-fields are allocated in declaration order inside
  an `unsigned int` unit, starting at the most significant bit on a big-endian
  target and at the least significant bit on a little-endian one (the rule of
  the GCC targets the library is built for).
* Assigning to an unsigned bit-field of width `w` stores the value modulo `2 ^ w`.
* `__packed__` records place every member right after the previous one; a
  `__packed__` union is as large as its largest member.
-/

namespace CSP

/-! ## Constants -/

def CSP_ANY : Nat := 16
def CSP_PING : Nat := 1
def CSP_PS : Nat := 2
def CSP_MEMFREE : Nat := 3
def CSP_REBOOT : Nat := 4
def CSP_BUF_FREE : Nat := 5

def PRIO_CRITICAL : Nat := 0
def PRIO_ALERT : Nat := 1
def PRIO_HIGH : Nat := 2
def PRIO_RESERVED : Nat := 3
def PRIO_NORM : Nat := 4
def PRIO_LOW : Nat := 5
def PRIO_BULK : Nat := 6
def PRIO_DEBUG : Nat := 7

def CSP_RESERVED1 : Nat := 0
def CSP_RESERVED2 : Nat := 1
def CSP_BEGIN : Nat := 2
def CSP_ACK : Nat := 3
def CSP_ERROR : Nat := 4
def CSP_MORE : Nat := 5
def CSP_RESERVED3 : Nat := 6
def CSP_RESERVED4 : Nat := 7

/-! ## The identifier union -/

/-- Which of the two bit-field declarations of `csp_id_t` is compiled:
`big` is `_CSP_BIG_ENDIAN_`, `little` is `_CSP_LITTLE_ENDIAN_`. -/
inductive Endian where
  | big
  | little
  deriving DecidableEq, Repr

/-- The eight bit-field members of `csp_id_t`. -/
inductive Field where
  | res
  | pri
  | src
  | dst
  | dport
  | sport
  | type
  | seq
  deriving DecidableEq, Repr, Fintype

/-- The bit-field members with their widths, in declaration order, for each of
the two branches of the `#if` in `csp_id_t`. -/
def bitfields : Endian → List (Field × Nat)
  | .big =>
    [(.res, 3), (.pri, 3), (.src, 4), (.dst, 4), (.dport, 5), (.sport, 5), (.type, 3), (.seq, 5)]
  | .little =>
    [(.seq, 5), (.type, 3), (.sport, 5), (.dport, 5), (.dst, 4), (.src, 4), (.pri, 3), (.res, 3)]

/-- Number of bits of the allocation unit of an `unsigned int` bit-field. -/
def unitBits : Nat := 32

/-- Bit-field allocation: members are placed one after the other starting at bit
offset `off`; a member that would cross the end of a unit starts the next unit.
The result lists each member with its bit offset and width. -/
def allocate : Nat → List (Field × Nat) → List (Field × Nat × Nat)
  | _, [] => []
  | off, (f, w) :: rest =>
    let start := if off % unitBits + w ≤ unitBits then off else (off / unitBits + 1) * unitBits
    (f, start, w) :: allocate (start + w) rest

/-- Offset and width of a member in an allocation (`(0, 0)` for an absent one). -/
def slot (l : List (Field × Nat × Nat)) (f : Field) : Nat × Nat :=
  (l.lookup f).getD (0, 0)

/-- Width in bits of member `f`. -/
def width (e : Endian) (f : Field) : Nat :=
  (slot (allocate 0 (bitfields e)) f).2

/-- Position of the least significant bit of member `f` inside the 32-bit unit:
the allocation offset counts from the least significant bit on a little-endian
target and from the most significant bit on a big-endian one. -/
def shift (e : Endian) (f : Field) : Nat :=
  let s := slot (allocate 0 (bitfields e)) f
  match e with
  | .little => s.1
  | .big => unitBits - s.1 - s.2

/-- Storage of the union `csp_id_t`: the four bytes `tab[0..3]` in address order. -/
structure csp_id_t where
  tab0 : Fin 256
  tab1 : Fin 256
  tab2 : Fin 256
  tab3 : Fin 256
  deriving DecidableEq, Repr

/-- Member `tab[i]` (out of range indices read as 0). -/
def csp_id_t.tab (c : csp_id_t) (i : Nat) : Nat :=
  match i with
  | 0 => c.tab0.val
  | 1 => c.tab1.val
  | 2 => c.tab2.val
  | 3 => c.tab3.val
  | _ => 0

/-- Byte number `i` (0 is the least significant) of a machine word. -/
def byteOf (w i : Nat) : Fin 256 :=
  ⟨(w / 2 ^ (8 * i)) % 256, Nat.mod_lt _ (by decide)⟩

/-- Member `ext`: the four bytes read as a `uint32_t` in the target byte order. -/
def csp_id_t.ext (e : Endian) (c : csp_id_t) : Nat :=
  match e with
  | .big => c.tab0.val * 2 ^ 24 + c.tab1.val * 2 ^ 16 + c.tab2.val * 2 ^ 8 + c.tab3.val
  | .little => c.tab0.val + c.tab1.val * 2 ^ 8 + c.tab2.val * 2 ^ 16 + c.tab3.val * 2 ^ 24

/-- Assignment `id.ext = w`: all four bytes are overwritten. -/
def csp_id_t.setExt (e : Endian) (w : Nat) : csp_id_t :=
  match e with
  | .big => ⟨byteOf w 3, byteOf w 2, byteOf w 1, byteOf w 0⟩
  | .little => ⟨byteOf w 0, byteOf w 1, byteOf w 2, byteOf w 3⟩

/-- Member `std`: the two bytes at the lowest addresses read as a `uint16_t`. -/
def csp_id_t.std (e : Endian) (c : csp_id_t) : Nat :=
  match e with
  | .big => c.tab0.val * 2 ^ 8 + c.tab1.val
  | .little => c.tab0.val + c.tab1.val * 2 ^ 8

/-- Assignment `id.std = v`: the two lowest bytes are overwritten, the other two kept. -/
def csp_id_t.setStd (e : Endian) (c : csp_id_t) (v : Nat) : csp_id_t :=
  match e with
  | .big => { c with tab0 := byteOf v 1, tab1 := byteOf v 0 }
  | .little => { c with tab0 := byteOf v 0, tab1 := byteOf v 1 }

/-- All-zero storage. -/
def csp_id_t.zero : csp_id_t := ⟨0, 0, 0, 0⟩

/-- Reading the bit-field member `f`. -/
def csp_id_t.get (e : Endian) (c : csp_id_t) (f : Field) : Nat :=
  (c.ext e / 2 ^ shift e f) % 2 ^ width e f

/-- Assignment `id.f = v` to a bit-field member: `v` is reduced modulo
`2 ^ width`, the bits of the member are replaced and every other bit is kept. -/
def csp_id_t.set (e : Endian) (c : csp_id_t) (f : Field) (v : Nat) : csp_id_t :=
  csp_id_t.setExt e
    (c.ext e - c.get e f * 2 ^ shift e f + (v % 2 ^ width e f) * 2 ^ shift e f)

/-- Values for the eight members of an identifier. -/
structure Fields where
  res : Nat
  pri : Nat
  src : Nat
  dst : Nat
  dport : Nat
  sport : Nat
  type : Nat
  seq : Nat
  deriving DecidableEq, Repr

/-- The value a tuple holds for member `f`. -/
def Fields.val (x : Fields) : Field → Nat
  | .res => x.res
  | .pri => x.pri
  | .src => x.src
  | .dst => x.dst
  | .dport => x.dport
  | .sport => x.sport
  | .type => x.type
  | .seq => x.seq

/-- Every value fits the declared width of its member. -/
def Fields.InRange (x : Fields) : Prop :=
  x.res < 8 ∧ x.pri < 8 ∧ x.src < 16 ∧ x.dst < 16 ∧
    x.dport < 32 ∧ x.sport < 32 ∧ x.type < 8 ∧ x.seq < 32

instance (x : Fields) : Decidable x.InRange := by
  unfold Fields.InRange; infer_instance

/-- Each value reduced modulo `2 ^ width` of its member. -/
def Fields.truncate (x : Fields) : Fields :=
  ⟨x.res % 2 ^ 3, x.pri % 2 ^ 3, x.src % 2 ^ 4, x.dst % 2 ^ 4,
    x.dport % 2 ^ 5, x.sport % 2 ^ 5, x.type % 2 ^ 3, x.seq % 2 ^ 5⟩

/-- Storing a tuple: the eight member assignments, one after the other, on
storage `c`. -/
def csp_id_t.store (e : Endian) (c : csp_id_t) (x : Fields) : csp_id_t :=
  [Field.res, .pri, .src, .dst, .dport, .sport, .type, .seq].foldl
    (fun acc f => acc.set e f (x.val f)) c

/-- Reading the eight members. -/
def csp_id_t.load (e : Endian) (c : csp_id_t) : Fields :=
  ⟨c.get e .res, c.get e .pri, c.get e .src, c.get e .dst,
    c.get e .dport, c.get e .sport, c.get e .type, c.get e .seq⟩

/-- 32-bit encoding: the word `ext` of an identifier holding the tuple. -/
def encode (e : Endian) (x : Fields) : Nat :=
  (csp_id_t.store e csp_id_t.zero x).ext e

/-- 32-bit decoding: the members of an identifier whose `ext` is `w`. -/
def decode (e : Endian) (w : Nat) : Fields :=
  (csp_id_t.setExt e w).load e

/-- 16-bit encoding: the member `std` of an identifier holding the tuple. -/
def encodeStd (e : Endian) (x : Fields) : Nat :=
  (csp_id_t.store e csp_id_t.zero x).std e

/-- 16-bit decoding: the members of an identifier whose `std` is `v` and whose
remaining storage is zero. -/
def decodeStd (e : Endian) (v : Nat) : Fields :=
  (csp_id_t.setStd e csp_id_t.zero v).load e



/-- The word of a tuple: every member reduced to its width, at its position. -/
def wordOf (x : Fields) : Nat :=
  x.res % 2 ^ 3 * 2 ^ 29 + x.pri % 2 ^ 3 * 2 ^ 26 + x.src % 2 ^ 4 * 2 ^ 22 +
    x.dst % 2 ^ 4 * 2 ^ 18 + x.dport % 2 ^ 5 * 2 ^ 13 + x.sport % 2 ^ 5 * 2 ^ 8 +
    x.type % 2 ^ 3 * 2 ^ 5 + x.seq % 2 ^ 5

/-! ## Record layout -/

def sizeof_uint8_t : Nat := 1
def sizeof_uint16_t : Nat := 2
def sizeof_uint32_t : Nat := 4

/-- Bytes taken by a record of `unsigned int` bit-fields: the whole allocation
units up to the last allocated bit. -/
def bitfieldBytes (l : List (Field × Nat)) : Nat :=
  let last := ((allocate 0 l).map (fun m => m.2.1 + m.2.2)).foldl max 0
  (last + unitBits - 1) / unitBits * (unitBits / 8)

/-- The members of the union `csp_id_t`. -/
inductive IdMember where
  | ext
  | std
  | tab
  | bits
  deriving DecidableEq, Repr

/-- The members of `csp_id_t` with their sizes in bytes: `uint32_t ext`,
`uint16_t std`, `uint8_t tab[4]` and the bit-field record. -/
def csp_id_t.members (e : Endian) : List (IdMember × Nat) :=
  [(.ext, sizeof_uint32_t), (.std, sizeof_uint16_t), (.tab, 4 * sizeof_uint8_t),
    (.bits, bitfieldBytes (bitfields e))]

/-- Size of a `__packed__` union: the size of its largest member. -/
def unionSize {α : Type} (ms : List (α × Nat)) : Nat :=
  (ms.map Prod.snd).foldl max 0

/-- Layout of a `__packed__` record: every member starts where the previous one
ends. The result lists each member with its offset and size. -/
def packedLayout {α : Type} : Nat → List (α × Nat) → List (α × Nat × Nat)
  | _, [] => []
  | off, (m, sz) :: rest => (m, off, sz) :: packedLayout (off + sz) rest

/-- Size of a `__packed__` record: the sum of the sizes of its members. -/
def structSize {α : Type} (ms : List (α × Nat)) : Nat :=
  (ms.map Prod.snd).sum

/-- The members of the record `csp_packet_t`. -/
inductive PacketMember where
  | padding1
  | length
  | id
  | data
  deriving DecidableEq, Repr

/-- The members of `csp_packet_t` with their sizes in bytes:
`uint8_t padding1[44]`, `uint16_t length`, `csp_id_t id`, `uint8_t data[CSP_MTU]`.
`CSP_MTU` comes from `csp_config.h`. -/
def csp_packet_t.members (e : Endian) (CSP_MTU : Nat) : List (PacketMember × Nat) :=
  [(.padding1, 44 * sizeof_uint8_t), (.length, sizeof_uint16_t),
    (.id, unionSize (csp_id_t.members e)), (.data, CSP_MTU * sizeof_uint8_t)]

/-! ## Router transmit order -/

/-- A packet buffer: the members of `csp_packet_t` the core reads. -/
structure csp_packet_t where
  length : Nat
  id : csp_id_t
  data : List Nat
  deriving DecidableEq, Repr

/-- Numeric priority of a packet: member `pri` of its identifier. -/
def csp_packet_t.prio (e : Endian) (p : csp_packet_t) : Nat :=
  p.id.get e .pri

/-- Modelled from the spec: the per-interface transmit queue of the router
(`csp_route.c`, which is not among the sources). "Lower numeric priority value
transmits first; packets of equal priority are transmitted in arrival order":
a packet that becomes ready is queued behind every waiting packet whose
priority value is not larger than its own. -/
def enqueue (e : Endian) (p : csp_packet_t) : List csp_packet_t → List csp_packet_t
  | [] => [p]
  | q :: qs => if q.prio e ≤ p.prio e then q :: enqueue e p qs else p :: q :: qs

/-- Modelled from the spec: the order in which the router hands the packets
ready for one interface, given in arrival order, to that interface's `nexthop_t`
transmit function (`csp_route.c`, which is not among the sources). -/
def transmitOrder (e : Endian) (ready : List csp_packet_t) : List csp_packet_t :=
  ready.foldl (fun q p => enqueue e p q) []

/-! ## Lemmas on the identifier union -/

theorem shift_table (e : Endian) (f : Field) :
    shift e f = match f with
      | .res => 29 | .pri => 26 | .src => 22 | .dst => 18
      | .dport => 13 | .sport => 8 | .type => 5 | .seq => 0 := by
  cases e <;> cases f <;> rfl

theorem width_table (e : Endian) (f : Field) :
    width e f = match f with
      | .res => 3 | .pri => 3 | .src => 4 | .dst => 4
      | .dport => 5 | .sport => 5 | .type => 3 | .seq => 5 := by
  cases e <;> cases f <;> rfl

theorem ext_lt (e : Endian) (c : csp_id_t) : c.ext e < 2 ^ 32 := by
  have h0 := c.tab0.isLt
  have h1 := c.tab1.isLt
  have h2 := c.tab2.isLt
  have h3 := c.tab3.isLt
  cases e <;> simp only [csp_id_t.ext] <;> omega

theorem ext_setExt (e : Endian) (w : Nat) : (csp_id_t.setExt e w).ext e = w % 2 ^ 32 := by
  cases e <;> simp only [csp_id_t.ext, csp_id_t.setExt, byteOf] <;> norm_num <;> omega

theorem get_set_same (e : Endian) (c : csp_id_t) (f : Field) (v : Nat) :
    (c.set e f v).get e f = v % 2 ^ width e f := by
  have hW := ext_lt e c
  simp only [csp_id_t.set, csp_id_t.get, ext_setExt, shift_table, width_table]
  generalize c.ext e = W at hW
  cases f <;> norm_num <;> omega

theorem get_set_other (e : Endian) (c : csp_id_t) (f g : Field) (v : Nat) (h : f ≠ g) :
    (c.set e f v).get e g = c.get e g := by
  have hW := ext_lt e c
  simp only [csp_id_t.set, csp_id_t.get, ext_setExt, shift_table, width_table]
  generalize c.ext e = W at hW
  cases f <;> cases g <;> first | exact absurd rfl h | (norm_num; omega)

theorem setExt_ext (e : Endian) (c : csp_id_t) : csp_id_t.setExt e (c.ext e) = c := by
  obtain ⟨⟨a, ha⟩, ⟨b, hb⟩, ⟨d, hd⟩, ⟨g, hg⟩⟩ := c
  cases e <;> simp only [csp_id_t.ext, csp_id_t.setExt, byteOf, csp_id_t.mk.injEq, Fin.mk.injEq]
    <;> norm_num <;> omega

theorem setExt_mod (e : Endian) (w : Nat) :
    csp_id_t.setExt e (w % 2 ^ 32) = csp_id_t.setExt e w := by
  cases e <;> simp only [csp_id_t.setExt, byteOf, csp_id_t.mk.injEq, Fin.mk.injEq]
    <;> norm_num <;> omega

theorem get_setExt (e : Endian) (w : Nat) (f : Field) :
    (csp_id_t.setExt e w).get e f = (w % 2 ^ 32 / 2 ^ shift e f) % 2 ^ width e f := by
  simp only [csp_id_t.get, ext_setExt]

/-- The word `ext` is the sum of the eight members, each at its position. -/
theorem ext_eq_sum (e : Endian) (c : csp_id_t) :
    c.ext e = c.get e .res * 2 ^ 29 + c.get e .pri * 2 ^ 26 + c.get e .src * 2 ^ 22 +
      c.get e .dst * 2 ^ 18 + c.get e .dport * 2 ^ 13 + c.get e .sport * 2 ^ 8 +
      c.get e .type * 2 ^ 5 + c.get e .seq := by
  have hW := ext_lt e c
  simp only [csp_id_t.get, shift_table, width_table]
  generalize c.ext e = W at hW
  norm_num
  omega

/-- Reading back after storing a tuple gives the tuple reduced to the widths,
whatever the storage held before. -/
theorem load_store (e : Endian) (c : csp_id_t) (x : Fields) :
    (c.store e x).load e = x.truncate := by
  simp [csp_id_t.store, csp_id_t.load, Fields.truncate, Fields.val, get_set_same,
    get_set_other, width_table]

/-- The word held after storing a tuple, whatever the storage held before. -/
theorem ext_store (e : Endian) (c : csp_id_t) (x : Fields) :
    (c.store e x).ext e =
      x.res % 2 ^ 3 * 2 ^ 29 + x.pri % 2 ^ 3 * 2 ^ 26 + x.src % 2 ^ 4 * 2 ^ 22 +
      x.dst % 2 ^ 4 * 2 ^ 18 + x.dport % 2 ^ 5 * 2 ^ 13 + x.sport % 2 ^ 5 * 2 ^ 8 +
      x.type % 2 ^ 3 * 2 ^ 5 + x.seq % 2 ^ 5 := by
  have h := load_store e c x
  simp only [csp_id_t.load, Fields.truncate, Fields.mk.injEq] at h
  obtain ⟨h1, h2, h3, h4, h5, h6, h7, h8⟩ := h
  rw [ext_eq_sum e (c.store e x), h1, h2, h3, h4, h5, h6, h7, h8]

theorem load_setExt_ext (e : Endian) (c : csp_id_t) :
    decode e (c.ext e) = c.load e := by
  simp only [decode, setExt_ext]

theorem truncate_of_inRange (x : Fields) (h : x.InRange) : x.truncate = x := by
  obtain ⟨h1, h2, h3, h4, h5, h6, h7, h8⟩ := h
  obtain ⟨a1, a2, a3, a4, a5, a6, a7, a8⟩ := x
  simp only [Fields.truncate, Fields.mk.injEq] at *
  norm_num
  omega

theorem wordOf_lt (x : Fields) : wordOf x < 2 ^ 32 := by
  simp only [wordOf]
  omega

theorem store_eq (e : Endian) (c : csp_id_t) (x : Fields) :
    c.store e x = csp_id_t.setExt e (wordOf x) := by
  rw [← setExt_ext e (c.store e x), ext_store, wordOf]

theorem std_setExt_big (w : Nat) :
    (csp_id_t.setExt .big w).std .big = w % 2 ^ 32 / 2 ^ 16 := by
  simp only [csp_id_t.std, csp_id_t.setExt, byteOf]
  norm_num
  omega

theorem std_setExt_little (w : Nat) :
    (csp_id_t.setExt .little w).std .little = w % 2 ^ 16 := by
  simp only [csp_id_t.std, csp_id_t.setExt, byteOf]
  norm_num
  omega

theorem ext_setStd_zero_big (v : Nat) :
    (csp_id_t.setStd .big csp_id_t.zero v).ext .big = v % 2 ^ 16 * 2 ^ 16 := by
  simp only [csp_id_t.ext, csp_id_t.setStd, csp_id_t.zero, byteOf]
  norm_num
  omega

theorem ext_setStd_zero_little (v : Nat) :
    (csp_id_t.setStd .little csp_id_t.zero v).ext .little = v % 2 ^ 16 := by
  simp only [csp_id_t.ext, csp_id_t.setStd, csp_id_t.zero, byteOf]
  norm_num
  omega

theorem encodeStd_big (x : Fields) : encodeStd .big x = wordOf x / 2 ^ 16 := by
  simp only [encodeStd, store_eq, std_setExt_big]
  rw [Nat.mod_eq_of_lt (wordOf_lt x)]

theorem encodeStd_little (x : Fields) : encodeStd .little x = wordOf x % 2 ^ 16 := by
  simp only [encodeStd, store_eq, std_setExt_little]

theorem decodeStd_big (v : Nat) :
    decodeStd .big v =
      ⟨v % 2 ^ 16 / 2 ^ 13, v % 2 ^ 13 / 2 ^ 10, v % 2 ^ 10 / 2 ^ 6, v % 2 ^ 6 / 2 ^ 2,
        v % 2 ^ 2 * 2 ^ 3, 0, 0, 0⟩ := by
  simp only [decodeStd, csp_id_t.load, csp_id_t.get, ext_setStd_zero_big, shift_table,
    width_table, Fields.mk.injEq]
  norm_num
  omega

theorem decodeStd_little (v : Nat) :
    decodeStd .little v =
      ⟨0, 0, 0, 0, v % 2 ^ 16 / 2 ^ 13, v % 2 ^ 13 / 2 ^ 8, v % 2 ^ 8 / 2 ^ 5, v % 2 ^ 5⟩ := by
  simp only [decodeStd, csp_id_t.load, csp_id_t.get, ext_setStd_zero_little, shift_table,
    width_table, Fields.mk.injEq]
  norm_num
  omega

/-! ## The identifier codec -/

/-- C1: 32-bit identifier round trip. For every tuple of in-range member values,
in either configuration, storing the members, taking the word `ext` and reading
the members of an identifier whose `ext` is that word gives the tuple back; this
holds from zeroed storage (`encode`) and from any earlier contents. -/
theorem id_roundtrip (e : Endian) (x : Fields) (h : x.InRange) :
    decode e (encode e x) = x ∧
      ∀ c0 : csp_id_t, decode e ((c0.store e x).ext e) = x := by
  have key : ∀ c0 : csp_id_t, decode e ((c0.store e x).ext e) = x := by
    intro c0
    rw [load_setExt_ext, load_store, truncate_of_inRange x h]
  exact ⟨key csp_id_t.zero, key⟩

/-- The round trip at the tuple (7, 2, 15, 4, 31, 6, 5, 8), little-endian configuration. -/
theorem id_roundtrip_witness :
    Fields.InRange ⟨7, 2, 15, 4, 31, 6, 5, 8⟩ ∧
      decode .little (encode .little ⟨7, 2, 15, 4, 31, 6, 5, 8⟩) = ⟨7, 2, 15, 4, 31, 6, 5, 8⟩ :=
  ⟨by decide, (id_roundtrip .little ⟨7, 2, 15, 4, 31, 6, 5, 8⟩ (by decide)).1⟩

/-- C2: most-significant-first bit layout. For every in-range tuple, in either
configuration, the word `ext` is
`res*2^29 + pri*2^26 + src*2^22 + dst*2^18 + dport*2^13 + sport*2^8 + type*2^5 + seq`;
from the top bit down the members sit at bit 29, 26, 22, 18, 13, 8, 5, 0 with
widths 3, 3, 4, 4, 5, 5, 3, 5, and each of the 32 bit positions belongs to
exactly one member. -/
theorem ext_layout (e : Endian) (x : Fields) (h : x.InRange) :
    encode e x = x.res * 2 ^ 29 + x.pri * 2 ^ 26 + x.src * 2 ^ 22 + x.dst * 2 ^ 18 +
        x.dport * 2 ^ 13 + x.sport * 2 ^ 8 + x.type * 2 ^ 5 + x.seq ∧
      [Field.res, .pri, .src, .dst, .dport, .sport, .type, .seq].map
          (fun f => (shift e f, width e f)) =
        [(29, 3), (26, 3), (22, 4), (18, 4), (13, 5), (8, 5), (5, 3), (0, 5)] ∧
      ∀ b : Fin 32, ∃! f : Field, shift e f ≤ b.val ∧ b.val < shift e f + width e f := by
  refine ⟨?_, ?_, ?_⟩
  · obtain ⟨h1, h2, h3, h4, h5, h6, h7, h8⟩ := h
    simp only [encode]
    rw [ext_store]
    omega
  · cases e <;> rfl
  · simp only [ExistsUnique, shift_table, width_table]
    decide

/-- The word of the tuple (1, 2, 3, 4, 5, 6, 7, 8), big-endian configuration. -/
theorem ext_layout_witness :
    Fields.InRange ⟨1, 2, 3, 4, 5, 6, 7, 8⟩ ∧
      encode .big ⟨1, 2, 3, 4, 5, 6, 7, 8⟩ =
        1 * 2 ^ 29 + 2 * 2 ^ 26 + 3 * 2 ^ 22 + 4 * 2 ^ 18 + 5 * 2 ^ 13 + 6 * 2 ^ 8 + 7 * 2 ^ 5 + 8 :=
  ⟨by decide, (ext_layout .big ⟨1, 2, 3, 4, 5, 6, 7, 8⟩ (by decide)).1⟩

/-- C3: truncation on encode. For every tuple of arbitrary values, in either
configuration, encoding gives the same word as encoding the tuple with each
value reduced modulo `2 ^ width` (widths 3, 3, 4, 4, 5, 5, 3, 5, the declared
ones); assigning any value to one member leaves the value read from every other
member unchanged; and decoding the encoding gives each value reduced modulo
`2 ^ width`. -/
theorem encode_truncates (e : Endian) (x : Fields) :
    encode e x = encode e x.truncate ∧
      (∀ f : Field, x.truncate.val f = x.val f % 2 ^ width e f) ∧
      (∀ (c : csp_id_t) (f g : Field) (v : Nat), f ≠ g →
        (c.set e f v).get e g = c.get e g) ∧
      decode e (encode e x) = x.truncate := by
  refine ⟨?_, ?_, ?_, ?_⟩
  · simp only [encode, ext_store, Fields.truncate, Nat.mod_mod]
  · intro f
    cases f <;> simp only [Fields.truncate, Fields.val, width_table]
  · intro c f g v h
    exact get_set_other e c f g v h
  · simp only [encode]
    rw [load_setExt_ext, load_store]

/-- Truncation at res = 9, and an over-wide `seq` leaving `type` untouched. -/
theorem encode_truncates_witness :
    encode .big ⟨9, 0, 0, 0, 0, 0, 0, 0⟩ = encode .big ⟨1, 0, 0, 0, 0, 0, 0, 0⟩ ∧
      ((csp_id_t.setExt .big 5).set .big .seq 63).get .big .type =
        (csp_id_t.setExt .big 5).get .big .type ∧
      decode .big (encode .big ⟨9, 0, 0, 0, 0, 0, 0, 0⟩) = ⟨1, 0, 0, 0, 0, 0, 0, 0⟩ :=
  ⟨(encode_truncates .big ⟨9, 0, 0, 0, 0, 0, 0, 0⟩).1,
    (encode_truncates .big ⟨9, 0, 0, 0, 0, 0, 0, 0⟩).2.2.1 (csp_id_t.setExt .big 5) .seq .type 63
      (by decide),
    (encode_truncates .big ⟨9, 0, 0, 0, 0, 0, 0, 0⟩).2.2.2⟩

/-- C4 (as stated, refuted): the member `std` does depend on the priority in the
big-endian configuration and on the type and sequence members in the
little-endian one, and decoding it gives those values back instead of zero. -/
theorem std_carries_pri_type_seq :
    (encodeStd .big ⟨0, 1, 0, 0, 0, 0, 0, 0⟩ = 1024 ∧
        encodeStd .big ⟨0, 0, 0, 0, 0, 0, 0, 0⟩ = 0 ∧
        (decodeStd .big (encodeStd .big ⟨0, 1, 0, 0, 0, 0, 0, 0⟩)).pri = 1) ∧
      (encodeStd .little ⟨0, 0, 0, 0, 0, 0, 1, 1⟩ = 33 ∧
        encodeStd .little ⟨0, 0, 0, 0, 0, 0, 0, 0⟩ = 0 ∧
        (decodeStd .little (encodeStd .little ⟨0, 0, 0, 0, 0, 0, 1, 1⟩)).type = 1 ∧
        (decodeStd .little (encodeStd .little ⟨0, 0, 0, 0, 0, 0, 1, 1⟩)).seq = 1) ∧
      ¬ ∀ (e : Endian) (x y : Fields), x.res = y.res → x.src = y.src → x.dst = y.dst →
          x.dport = y.dport → x.sport = y.sport →
          encodeStd e x = encodeStd e y ∧ (decodeStd e (encodeStd e x)).pri = 0 ∧
            (decodeStd e (encodeStd e x)).type = 0 ∧ (decodeStd e (encodeStd e x)).seq = 0 := by
  refine ⟨by decide, by decide, ?_⟩
  intro h
  have h1 := (h .big ⟨0, 1, 0, 0, 0, 0, 0, 0⟩ ⟨0, 0, 0, 0, 0, 0, 0, 0⟩ rfl rfl rfl rfl rfl).1
  revert h1
  decide

/-- C4 (amended): the member `std` is the half of `ext` at the lowest addresses.
In the big-endian configuration it is the upper half: it does not depend on the
type and sequence members (nor on the source port), and decoding it gives
type = 0 and sequence = 0 while the priority is carried. In the little-endian
configuration it is the lower half: it does not depend on the priority (nor on
the reserved bits and node addresses), and decoding it gives priority = 0 while
type and sequence are carried. -/
theorem std_half_word (x : Fields) (p q t s : Nat) :
    encodeStd .big x = encode .big x / 2 ^ 16 ∧
      encodeStd .big { x with sport := q, type := t, seq := s } = encodeStd .big x ∧
      (decodeStd .big (encodeStd .big x)).type = 0 ∧
      (decodeStd .big (encodeStd .big x)).seq = 0 ∧
      (decodeStd .big (encodeStd .big x)).pri = x.pri % 2 ^ 3 ∧
      encodeStd .little x = encode .little x % 2 ^ 16 ∧
      encodeStd .little { x with res := p, pri := q, src := t, dst := s } =
        encodeStd .little x ∧
      (decodeStd .little (encodeStd .little x)).pri = 0 ∧
      (decodeStd .little (encodeStd .little x)).type = x.type % 2 ^ 3 ∧
      (decodeStd .little (encodeStd .little x)).seq = x.seq % 2 ^ 5 := by
  have he : ∀ e, encode e x = wordOf x := fun e => by simp only [encode, ext_store, wordOf]
  simp only [he, encodeStd_big, encodeStd_little, decodeStd_big, decodeStd_little, wordOf]
  refine ⟨trivial, ?_, trivial, trivial, ?_, trivial, ?_, trivial, ?_, ?_⟩ <;> omega

/-- C5 (as stated, refuted): for the in-range tuple src = 1, dst = 1, dport = 9,
sport = 1 the 16-bit view does not give back what the 32-bit view gives: the
big-endian configuration loses the low bits of dport and the whole sport, the
little-endian one loses src, dst and the high bits of dport. -/
theorem std_loses_ports_or_nodes :
    Fields.InRange ⟨0, 0, 1, 1, 9, 1, 0, 0⟩ ∧
      (decode .big (encode .big ⟨0, 0, 1, 1, 9, 1, 0, 0⟩)).dport = 9 ∧
      (decodeStd .big (encodeStd .big ⟨0, 0, 1, 1, 9, 1, 0, 0⟩)).dport = 8 ∧
      (decodeStd .big (encodeStd .big ⟨0, 0, 1, 1, 9, 1, 0, 0⟩)).sport = 0 ∧
      (decode .little (encode .little ⟨0, 0, 1, 1, 9, 1, 0, 0⟩)).src = 1 ∧
      (decodeStd .little (encodeStd .little ⟨0, 0, 1, 1, 9, 1, 0, 0⟩)).src = 0 ∧
      (decodeStd .little (encodeStd .little ⟨0, 0, 1, 1, 9, 1, 0, 0⟩)).dst = 0 ∧
      (decodeStd .little (encodeStd .little ⟨0, 0, 1, 1, 9, 1, 0, 0⟩)).dport = 1 := by
  decide

/-- C5 (amended): for every in-range tuple, decoding the 32-bit encoding gives
the tuple's src, dst, dport and sport in either configuration; decoding the
16-bit encoding agrees in part only. In the big-endian configuration it gives
the tuple's src and dst, dport with its three low bits cleared and sport = 0;
in the little-endian configuration it gives the tuple's sport, dport modulo 8
and src = dst = 0. -/
theorem std_agrees_in_part (x : Fields) (h : x.InRange) :
    (∀ e : Endian, (decode e (encode e x)).src = x.src ∧ (decode e (encode e x)).dst = x.dst ∧
        (decode e (encode e x)).dport = x.dport ∧ (decode e (encode e x)).sport = x.sport) ∧
      (decodeStd .big (encodeStd .big x)).src = x.src ∧
      (decodeStd .big (encodeStd .big x)).dst = x.dst ∧
      (decodeStd .big (encodeStd .big x)).dport = x.dport / 8 * 8 ∧
      (decodeStd .big (encodeStd .big x)).sport = 0 ∧
      (decodeStd .little (encodeStd .little x)).src = 0 ∧
      (decodeStd .little (encodeStd .little x)).dst = 0 ∧
      (decodeStd .little (encodeStd .little x)).dport = x.dport % 8 ∧
      (decodeStd .little (encodeStd .little x)).sport = x.sport := by
  have hd : ∀ e : Endian, decode e (encode e x) = x := fun e => by
    simp only [encode]
    rw [load_setExt_ext, load_store, truncate_of_inRange x h]
  obtain ⟨h1, h2, h3, h4, h5, h6, h7, h8⟩ := h
  simp only [hd, encodeStd_big, encodeStd_little, decodeStd_big, decodeStd_little, wordOf]
  refine ⟨fun _ => ⟨trivial, trivial, trivial, trivial⟩, ?_, ?_, ?_, trivial, trivial, trivial,
    ?_, ?_⟩ <;> omega

/-- The 16-bit view at src = 1, dst = 1, dport = 9, sport = 1. -/
theorem std_agrees_in_part_witness :
    Fields.InRange ⟨0, 0, 1, 1, 9, 1, 0, 0⟩ ∧
      (decodeStd .big (encodeStd .big ⟨0, 0, 1, 1, 9, 1, 0, 0⟩)).dport = 9 / 8 * 8 ∧
      (decodeStd .little (encodeStd .little ⟨0, 0, 1, 1, 9, 1, 0, 0⟩)).dport = 9 % 8 :=
  ⟨by decide,
    (std_agrees_in_part ⟨0, 0, 1, 1, 9, 1, 0, 0⟩ (by decide)).2.2.2.1,
    (std_agrees_in_part ⟨0, 0, 1, 1, 9, 1, 0, 0⟩ (by decide)).2.2.2.2.2.2.2.1⟩

/-- C10: the two declarations agree. The little-endian declaration lists the
members of the big-endian one in reverse; every member gets the same position
and width in the word; for every tuple the word `ext` is the same in the two
configurations, from any earlier contents; and the bytes seen through `tab` are
each other's reverse, `tab_BE[i] = tab_LE[3 - i]`. -/
theorem declarations_agree (x : Fields) :
    bitfields .little = (bitfields .big).reverse ∧
      (∀ f : Field, shift .big f = shift .little f ∧ width .big f = width .little f) ∧
      encode .big x = encode .little x ∧
      (∀ c0 c1 : csp_id_t, (c0.store .big x).ext .big = (c1.store .little x).ext .little) ∧
      (∀ (c0 c1 : csp_id_t) (i : Fin 4),
        (c0.store .big x).tab i.val = (c1.store .little x).tab (3 - i.val)) := by
  refine ⟨rfl, ?_, ?_, ?_, ?_⟩
  · intro f
    cases f <;> exact ⟨rfl, rfl⟩
  · simp only [encode, ext_store]
  · intro c0 c1
    simp only [ext_store]
  · intro c0 c1 i
    simp only [store_eq]
    fin_cases i <;> rfl

/-! ## Constants and the members that carry them -/

/-- C7: reserved ports. The constants are CSP_PING = 1, CSP_PS = 2,
CSP_MEMFREE = 3, CSP_REBOOT = 4, CSP_BUF_FREE = 5 and CSP_ANY = 16; they are
pairwise distinct and below 32; each is read back unchanged after being assigned
to the 5-bit member `dport` or `sport`, also through the 32-bit encoding of a
whole identifier; and CSP_ANY stays distinct from every service port there. -/
theorem reserved_ports (e : Endian) (c : csp_id_t) (x : Fields) :
    [CSP_PING, CSP_PS, CSP_MEMFREE, CSP_REBOOT, CSP_BUF_FREE, CSP_ANY] = [1, 2, 3, 4, 5, 16] ∧
      [CSP_PING, CSP_PS, CSP_MEMFREE, CSP_REBOOT, CSP_BUF_FREE, CSP_ANY].Nodup ∧
      (∀ p ∈ [CSP_PING, CSP_PS, CSP_MEMFREE, CSP_REBOOT, CSP_BUF_FREE, CSP_ANY],
        p < 32 ∧ (c.set e .dport p).get e .dport = p ∧ (c.set e .sport p).get e .sport = p ∧
          (decode e (encode e { x with dport := p })).dport = p ∧
          (decode e (encode e { x with sport := p })).sport = p) ∧
      (∀ p ∈ [CSP_PING, CSP_PS, CSP_MEMFREE, CSP_REBOOT, CSP_BUF_FREE],
        (c.set e .dport CSP_ANY).get e .dport ≠ (c.set e .dport p).get e .dport ∧
          (c.set e .sport CSP_ANY).get e .sport ≠ (c.set e .sport p).get e .sport) := by
  have hd : ∀ y : Fields, decode e (encode e y) = y.truncate := fun y => by
    simp only [encode]
    rw [load_setExt_ext, load_store]
  refine ⟨rfl, by decide, ?_, ?_⟩
  · intro p hp
    simp only [get_set_same, width_table, hd, Fields.truncate]
    simp only [CSP_PING, CSP_PS, CSP_MEMFREE, CSP_REBOOT, CSP_BUF_FREE, CSP_ANY,
      List.mem_cons, List.mem_singleton, List.not_mem_nil, or_false] at hp
    omega
  · intro p hp
    simp only [get_set_same, width_table]
    simp only [CSP_PING, CSP_PS, CSP_MEMFREE, CSP_REBOOT, CSP_BUF_FREE,
      List.mem_cons, List.mem_singleton, List.not_mem_nil, or_false] at hp
    simp only [CSP_ANY]
    omega

/-- CSP_ANY read back from `dport` on storage that held all ones. -/
theorem reserved_ports_witness :
    CSP_ANY ∈ [CSP_PING, CSP_PS, CSP_MEMFREE, CSP_REBOOT, CSP_BUF_FREE, CSP_ANY] ∧
      ((csp_id_t.setExt .little 4294967295).set .little .dport CSP_ANY).get .little .dport =
        CSP_ANY :=
  ⟨by decide,
    ((reserved_ports .little (csp_id_t.setExt .little 4294967295) ⟨0, 0, 0, 0, 0, 0, 0, 0⟩).2.2.1
      CSP_ANY (by decide)).2.1⟩

/-- C8: priorities and frame types. The eight priority constants are 0..7 in
the order CRITICAL, ALERT, HIGH, RESERVED, NORM, LOW, BULK, DEBUG; the eight
frame-type constants are 0..7 with CSP_BEGIN = 2, CSP_ACK = 3, CSP_ERROR = 4,
CSP_MORE = 5 and the reserved types 0, 1, 6, 7; every one of them is read back
unchanged from the 3-bit member `pri`, respectively `type`, also through the
32-bit encoding of a whole identifier. -/
theorem priorities_and_types (e : Endian) (c : csp_id_t) (x : Fields) :
    [PRIO_CRITICAL, PRIO_ALERT, PRIO_HIGH, PRIO_RESERVED, PRIO_NORM, PRIO_LOW, PRIO_BULK,
        PRIO_DEBUG] = List.range 8 ∧
      [CSP_RESERVED1, CSP_RESERVED2, CSP_BEGIN, CSP_ACK, CSP_ERROR, CSP_MORE, CSP_RESERVED3,
        CSP_RESERVED4] = List.range 8 ∧
      [CSP_BEGIN, CSP_ACK, CSP_ERROR, CSP_MORE] = [2, 3, 4, 5] ∧
      [CSP_RESERVED1, CSP_RESERVED2, CSP_RESERVED3, CSP_RESERVED4] = [0, 1, 6, 7] ∧
      (∀ p ∈ [PRIO_CRITICAL, PRIO_ALERT, PRIO_HIGH, PRIO_RESERVED, PRIO_NORM, PRIO_LOW,
          PRIO_BULK, PRIO_DEBUG],
        p < 2 ^ width e .pri ∧ (c.set e .pri p).get e .pri = p ∧
          (decode e (encode e { x with pri := p })).pri = p) ∧
      (∀ t ∈ [CSP_RESERVED1, CSP_RESERVED2, CSP_BEGIN, CSP_ACK, CSP_ERROR, CSP_MORE,
          CSP_RESERVED3, CSP_RESERVED4],
        t < 2 ^ width e .type ∧ (c.set e .type t).get e .type = t ∧
          (decode e (encode e { x with type := t })).type = t) := by
  have hd : ∀ y : Fields, decode e (encode e y) = y.truncate := fun y => by
    simp only [encode]
    rw [load_setExt_ext, load_store]
  refine ⟨by decide, by decide, rfl, rfl, ?_, ?_⟩
  · intro p hp
    simp only [get_set_same, width_table, hd, Fields.truncate]
    simp only [PRIO_CRITICAL, PRIO_ALERT, PRIO_HIGH, PRIO_RESERVED, PRIO_NORM, PRIO_LOW,
      PRIO_BULK, PRIO_DEBUG, List.mem_cons, List.mem_singleton, List.not_mem_nil, or_false] at hp
    omega
  · intro t ht
    simp only [get_set_same, width_table, hd, Fields.truncate]
    simp only [CSP_RESERVED1, CSP_RESERVED2, CSP_BEGIN, CSP_ACK, CSP_ERROR, CSP_MORE,
      CSP_RESERVED3, CSP_RESERVED4, List.mem_cons, List.mem_singleton, List.not_mem_nil,
      or_false] at ht
    omega

/-- PRIO_DEBUG through the 32-bit encoding, big-endian configuration. -/
theorem priorities_and_types_witness :
    PRIO_DEBUG ∈ [PRIO_CRITICAL, PRIO_ALERT, PRIO_HIGH, PRIO_RESERVED, PRIO_NORM, PRIO_LOW,
        PRIO_BULK, PRIO_DEBUG] ∧
      (decode .big (encode .big { (⟨0, 0, 1, 2, 3, 4, 5, 6⟩ : Fields) with pri := PRIO_DEBUG })).pri =
        PRIO_DEBUG :=
  ⟨by decide,
    ((priorities_and_types .big csp_id_t.zero ⟨0, 0, 1, 2, 3, 4, 5, 6⟩).2.2.2.2.1
      PRIO_DEBUG (by decide)).2.2⟩

/-! ## The packet record -/

/-- C6: packet buffer layout. For every `CSP_MTU`, in either configuration,
`csp_packet_t` holds the 44-byte `padding1` at offset 0, the 2-byte `length` at
offset 44, the identifier at offset 46 on 4 bytes and `data` at offset 50 on
`CSP_MTU` bytes, 50 + `CSP_MTU` bytes in all; the union `csp_id_t` is 4 bytes,
the size of its members `ext`, `tab` and of the bit-field record. -/
theorem packet_layout (e : Endian) (CSP_MTU : Nat) :
    csp_id_t.members e = [(.ext, 4), (.std, 2), (.tab, 4), (.bits, 4)] ∧
      unionSize (csp_id_t.members e) = 4 ∧
      packedLayout 0 (csp_packet_t.members e CSP_MTU) =
        [(.padding1, 0, 44), (.length, 44, 2), (.id, 46, 4), (.data, 50, CSP_MTU)] ∧
      structSize (csp_packet_t.members e CSP_MTU) = 50 + CSP_MTU := by
  have hm : csp_id_t.members e = [(.ext, 4), (.std, 2), (.tab, 4), (.bits, 4)] := by
    cases e <;> rfl
  have hu : unionSize (csp_id_t.members e) = 4 := by rw [hm]; rfl
  refine ⟨hm, hu, ?_, ?_⟩
  · simp only [csp_packet_t.members, hu, packedLayout, sizeof_uint8_t, sizeof_uint16_t]
    norm_num
  · simp only [csp_packet_t.members, hu, structSize, sizeof_uint8_t, sizeof_uint16_t,
      List.map, List.sum_cons, List.sum_nil]
    omega

/-! ## Router transmit order -/

theorem enqueue_perm (e : Endian) (p : csp_packet_t) (q : List csp_packet_t) :
    (enqueue e p q).Perm (p :: q) := by
  induction q with
  | nil => exact List.Perm.refl _
  | cons a as ih =>
    simp only [enqueue]
    split
    · exact ((List.Perm.cons a ih).trans (List.Perm.swap p a as))
    · exact List.Perm.refl _

theorem enqueue_sorted (e : Endian) (p : csp_packet_t) (q : List csp_packet_t)
    (h : q.Pairwise (fun a b => a.prio e ≤ b.prio e)) :
    (enqueue e p q).Pairwise (fun a b => a.prio e ≤ b.prio e) := by
  induction q with
  | nil => simp [enqueue]
  | cons a as ih =>
    rw [List.pairwise_cons] at h
    simp only [enqueue]
    split
    · rename_i hle
      rw [List.pairwise_cons]
      refine ⟨?_, ih h.2⟩
      intro b hb
      have hb2 := (enqueue_perm e p as).mem_iff.mp hb
      rcases List.mem_cons.mp hb2 with hbp | hbas
      · rw [hbp]; exact hle
      · exact h.1 b hbas
    · rename_i hlt
      rw [List.pairwise_cons, List.pairwise_cons]
      refine ⟨?_, h⟩
      intro b hb
      rcases List.mem_cons.mp hb with hba | hbas
      · rw [hba]; omega
      · have := h.1 b hbas
        omega

theorem enqueue_filter (e : Endian) (p : csp_packet_t) (q : List csp_packet_t) (k : Nat)
    (h : q.Pairwise (fun a b => a.prio e ≤ b.prio e)) :
    (enqueue e p q).filter (fun a => decide (a.prio e = k)) =
      q.filter (fun a => decide (a.prio e = k)) ++
        [p].filter (fun a => decide (a.prio e = k)) := by
  induction q with
  | nil => simp [enqueue]
  | cons a as ih =>
    rw [List.pairwise_cons] at h
    simp only [enqueue]
    split
    · rw [List.filter_cons, List.filter_cons, ih h.2]
      split <;> simp
    · rename_i hlt
      by_cases hk : p.prio e = k
      · have hnone : (a :: as).filter (fun b => decide (b.prio e = k)) = [] := by
          rw [List.filter_eq_nil_iff]
          intro b hb
          rcases List.mem_cons.mp hb with hba | hbas
          · rw [hba]; simp; omega
          · have := h.1 b hbas
            simp; omega
        rw [List.filter_cons, hnone]
        simp [hk]
      · rw [List.filter_cons]
        simp [hk]

theorem foldl_enqueue (e : Endian) (ready acc : List csp_packet_t)
    (h : acc.Pairwise (fun a b => a.prio e ≤ b.prio e)) :
    (ready.foldl (fun q p => enqueue e p q) acc).Perm (acc ++ ready) ∧
      (ready.foldl (fun q p => enqueue e p q) acc).Pairwise (fun a b => a.prio e ≤ b.prio e) ∧
      ∀ k : Nat, (ready.foldl (fun q p => enqueue e p q) acc).filter
          (fun a => decide (a.prio e = k)) =
        acc.filter (fun a => decide (a.prio e = k)) ++
          ready.filter (fun a => decide (a.prio e = k)) := by
  induction ready generalizing acc with
  | nil => simp [h]
  | cons p ps ih =>
    have hs := enqueue_sorted e p acc h
    obtain ⟨h1, h2, h3⟩ := ih (enqueue e p acc) hs
    simp only [List.foldl_cons]
    refine ⟨?_, h2, ?_⟩
    · refine h1.trans ?_
      have hp : (enqueue e p acc).Perm (acc ++ [p]) :=
        (enqueue_perm e p acc).trans (List.perm_append_singleton p acc).symm
      simpa using hp.append_right ps
    · intro k
      rw [h3 k, enqueue_filter e p acc k h, List.append_assoc, ← List.filter_append]
      rfl

/-- C9: router transmit order, on the transmit queue modelled from the spec.
For every list of packets ready for one interface, given in arrival order, the
router hands over exactly those packets, in order of non-decreasing numeric
priority (member `pri` of the identifier), and the packets of each priority
value are handed over in their arrival order. -/
theorem transmit_order (e : Endian) (ready : List csp_packet_t) :
    (transmitOrder e ready).Perm ready ∧
      (transmitOrder e ready).Pairwise (fun a b => a.prio e ≤ b.prio e) ∧
      ∀ k : Nat, (transmitOrder e ready).filter (fun a => decide (a.prio e = k)) =
        ready.filter (fun a => decide (a.prio e = k)) := by
  have h := foldl_enqueue e ready [] List.Pairwise.nil
  simpa [transmitOrder] using h

end CSP
